import Mathlib

/-!
Verification of the Minesweeper board engine
(`minesweeper_project/game_logic.py`, with the win check from
`minesweeper_project/gui.py`).

The Python class `MinesweeperLogic` is embedded as a `Board` structure
together with pure state-passing functions, one per method.  Python sets
become `Finset`, Python list indexing (including negative-index wraparound
and `IndexError`) is modelled by `pyGet` returning `Option`.  The random
selection made by `random.sample` inside `place_mines` is exposed as an
explicit parameter `sel`; theorems quantify over every selection drawn
from the candidate list, which covers every behaviour of the randomized
code.
-/

namespace Mines

/-- A cell coordinate `(x, y)`.  Python uses unbounded integers, so we do
not restrict to grid bounds here. -/
abbrev Cell := Int × Int

/-- Python list indexing `l[i]`: non-negative indices index from the
front, negative indices wrap once from the back, anything else raises
`IndexError`, modelled as `none`. -/
def pyGet {α : Type} (l : List α) (i : Int) : Option α :=
  if 0 ≤ i then l.get? i.toNat
  else if 0 ≤ (l.length : Int) + i then l.get? ((l.length : Int) + i).toNat
  else none

/-- Python `self.grid[y][x]`. -/
def gridVal (g : List (List Int)) (x y : Int) : Option Int :=
  (pyGet g y).bind fun row => pyGet row x

/-- The state of `MinesweeperLogic`, one field per Python attribute.
`time_started` is a `datetime` in Python and is never assigned after
`__init__`; we keep it as an opaque optional timestamp. -/
structure Board where
  width : Nat
  height : Nat
  num_mines : Nat
  grid : List (List Int)
  mine_positions : Finset Cell
  first_move : Bool
  revealed : Finset Cell
  flagged : Finset Cell
  game_over : Bool
  won : Bool
  time_started : Option Nat
  game_time : Nat
  mines_remaining : Int
deriving DecidableEq

/-- The constructor `MinesweeperLogic.__init__`, which also runs the
grid-setup helper that fills `grid` with `height` rows of `width` zeros. -/
def Board.init (w h m : Nat) : Board :=
  { width := w
    height := h
    num_mines := m
    grid := List.replicate h (List.replicate w 0)
    mine_positions := ∅
    first_move := true
    revealed := ∅
    flagged := ∅
    game_over := false
    won := false
    time_started := none
    game_time := 0
    mines_remaining := (m : Int) }

/-- The method `get_adjacent_squares`: the two `dx`/`dy` loops with the
bounds check and the exclusion of `(0, 0)`, in source iteration order. -/
def get_adjacent_squares (w h : Nat) (x y : Int) : List Cell :=
  ([-1, 0, 1] : List Int).flatMap fun dx =>
    ([-1, 0, 1] : List Int).flatMap fun dy =>
      if 0 ≤ x + dx ∧ x + dx < (w : Int) ∧ 0 ≤ y + dy ∧ y + dy < (h : Int) ∧
          ¬(dx = 0 ∧ dy = 0) then
        [(x + dx, y + dy)]
      else []

/-- The method `count_adjacent_mines`: the counter incremented over the
same `dx`/`dy` loops is the number of offsets passing the test. -/
def count_adjacent_mines (w h : Nat) (mines : Finset Cell) (x y : Int) : Nat :=
  (([-1, 0, 1] : List Int).flatMap fun dx =>
      ([-1, 0, 1] : List Int).map fun dy => (dx, dy)).countP fun d =>
    decide (0 ≤ x + d.1 ∧ x + d.1 < (w : Int) ∧ 0 ≤ y + d.2 ∧
      y + d.2 < (h : Int) ∧ ¬(d.1 = 0 ∧ d.2 = 0) ∧ (x + d.1, y + d.2) ∈ mines)

/-- The safe zone computed at the top of `place_mines`: the set of the
first click's adjacent squares plus the click itself. -/
def safe_zone (w h : Nat) (fx fy : Int) : Finset Cell :=
  insert (fx, fy) (get_adjacent_squares w h fx fy).toFinset

/-- The list comprehension `available_positions` in `place_mines`:
all grid cells outside the safe zone, in source order. -/
def available_positions (w h : Nat) (fx fy : Int) : List Cell :=
  (List.range w).flatMap fun x =>
    (List.range h).flatMap fun y =>
      if ((x : Int), (y : Int)) ∈ safe_zone w h fx fy then []
      else [((x : Int), (y : Int))]

/-- The method `place_mines` after the random draw: `sel` stands for the
set built from `random.sample(available_positions, ...)`.  The first
mutation loop writes the sentinel `-1` at every selected cell; the second
double loop overwrites every non-selected cell with its adjacency count.
Both loops assign each cell at most once, so they are each a per-cell
`mapIdx` over the existing grid. -/
def place_mines (b : Board) (sel : Finset Cell) : Board :=
  let g1 := b.grid.mapIdx fun y row =>
    row.mapIdx fun x v => if ((x : Int), (y : Int)) ∈ sel then -1 else v
  let g2 := g1.mapIdx fun y row =>
    row.mapIdx fun x v =>
      if ((x : Int), (y : Int)) ∈ sel then v
      else (count_adjacent_mines b.width b.height sel (x : Int) (y : Int) : Int)
  { b with mine_positions := sel, grid := g2 }

/-- The method `toggle_flag`, returning the Python return value and the
updated state. -/
def toggle_flag (b : Board) (x y : Int) : Bool × Board :=
  if (x, y) ∈ b.revealed then (false, b)
  else if (x, y) ∈ b.flagged then
    (false, { b with flagged := b.flagged.erase (x, y),
                     mines_remaining := b.mines_remaining + 1 })
  else
    (true, { b with flagged := insert (x, y) b.flagged,
                    mines_remaining := b.mines_remaining - 1 })

/-- The method `is_mine`. -/
def is_mine (b : Board) (x y : Int) : Bool :=
  decide ((x, y) ∈ b.mine_positions)

/-- The method `get_value`; `none` models the `IndexError` Python raises
on an out-of-range index. -/
def get_value (b : Board) (x y : Int) : Option Int :=
  gridVal b.grid x y

/-- The body of the `for adj_x, adj_y in self.get_adjacent_squares(...)`
loop in `reveal_square`, folded over the adjacency list: each neighbour
that is in neither `revealed` nor `flagged` is added to both sets (we
track `newly`; the running `revealed` set is `b.revealed ∪ newly`), and
is appended to the push list when its grid value reads `0`.  A failed
grid read (`IndexError`) aborts with `none` for the pushes while keeping
everything already inserted, matching an exception escaping the loop. -/
def processAdj (g : List (List Int)) (blocked : Finset Cell) :
    List Cell → Finset Cell → Finset Cell × Option (List Cell)
  | [], newly => (newly, some [])
  | n :: rest, newly =>
    if n ∉ blocked ∧ n ∉ newly then
      match gridVal g n.1 n.2 with
      | none => (insert n newly, none)
      | some v =>
        match processAdj g blocked rest (insert n newly) with
        | (nf, none) => (nf, none)
        | (nf, some ps) => (nf, some (if v = 0 then n :: ps else ps))
    else processAdj g blocked rest newly

/-- The `while stack:` loop of `reveal_square`, parametrized by the
frontier discipline `sched` (how the popped cell's pushes are merged with
the remaining frontier).  The extra fuel argument is an upper bound on
the number of iterations; `reveal_square` passes enough fuel for the
loop never to run out (each iteration pops one entry, and entries are
pushed only together with an insertion of a fresh in-bounds cell into
`newly`).  The boolean result records whether a grid read raised. -/
def floodAux (w h : Nat) (g : List (List Int)) (blocked : Finset Cell)
    (sched : List Cell → List Cell → List Cell) :
    Nat → Finset Cell → List Cell → Finset Cell × Bool
  | _, newly, [] => (newly, false)
  | 0, newly, _ :: _ => (newly, false)
  | fuel + 1, newly, c :: rest =>
    match processAdj g blocked (get_adjacent_squares w h c.1 c.2) newly with
    | (newly1, none) => (newly1, true)
    | (newly1, some ps) => floodAux w h g blocked sched fuel newly1 (sched rest ps)

/-- Python's `stack.append` / `stack.pop()` discipline: we keep the top
of the stack at the head, so the pushes (listed in discovery order) are
reversed onto the front of the remaining frontier. -/
def stackSched (rest ps : List Cell) : List Cell := ps.reverse ++ rest

/-- A FIFO frontier: pushes go to the back. -/
def queueSched (rest ps : List Cell) : List Cell := rest ++ ps

/-- The method `reveal_square` with an explicit frontier discipline.
The early return on a revealed or flagged target, the insertion of the
target before its grid value is read (so an `IndexError`, modelled by
`none`, still leaves the target revealed), and the flood on value `0`
follow the source line by line. -/
def revealWith (sched : List Cell → List Cell → List Cell) (b : Board)
    (x y : Int) : Option (Finset Cell) × Board :=
  if (x, y) ∈ b.revealed ∨ (x, y) ∈ b.flagged then (some ∅, b)
  else
    match gridVal b.grid x y with
    | none => (none, { b with revealed := insert (x, y) b.revealed })
    | some v =>
      if v = 0 then
        let res := floodAux b.width b.height b.grid (b.revealed ∪ b.flagged)
          sched (b.width * b.height + 2) {(x, y)} [(x, y)]
        (if res.2 then none else some res.1,
          { b with revealed := b.revealed ∪ res.1 })
      else (some {(x, y)}, { b with revealed := insert (x, y) b.revealed })

/-- The method `reveal_square` as written, with Python's LIFO stack. -/
def reveal_square (b : Board) (x y : Int) : Option (Finset Cell) × Board :=
  revealWith stackSched b x y

/-- The same reveal with a FIFO queue frontier, used to settle the
claim that the frontier discipline does not affect the result. -/
def reveal_square_queue (b : Board) (x y : Int) : Option (Finset Cell) × Board :=
  revealWith queueSched b x y

/-- The GUI method `check_win` (`gui.py`): `len(self.game_logic.revealed)
== total_squares - self.game_logic.num_mines`, computed over Python
integers. -/
def check_win (b : Board) : Bool :=
  decide ((b.revealed.card : Int) = (b.width * b.height : Int) - (b.num_mines : Int))

/-- The dictionary produced by `get_save_state`.  The Python dict stores
`list(...)` of each set in arbitrary iteration order and `load_save_state`
turns them back into sets, so the snapshot is modelled with the
underlying sets. -/
structure SaveState where
  width : Nat
  height : Nat
  num_mines : Nat
  grid : List (List Int)
  mine_positions : Finset Cell
  first_move : Bool
  revealed : Finset Cell
  flagged : Finset Cell
  game_over : Bool
  won : Bool
  game_time : Nat
  mines_remaining : Int
deriving DecidableEq

/-- The method `get_save_state`. -/
def get_save_state (b : Board) : SaveState :=
  { width := b.width
    height := b.height
    num_mines := b.num_mines
    grid := b.grid
    mine_positions := b.mine_positions
    first_move := b.first_move
    revealed := b.revealed
    flagged := b.flagged
    game_over := b.game_over
    won := b.won
    game_time := b.game_time
    mines_remaining := b.mines_remaining }

/-- The method `load_save_state`: every field of the dictionary is
assigned onto `self` unconditionally; `time_started` is not restored. -/
def load_save_state (b : Board) (s : SaveState) : Board :=
  { width := s.width
    height := s.height
    num_mines := s.num_mines
    grid := s.grid
    mine_positions := s.mine_positions
    first_move := s.first_move
    revealed := s.revealed
    flagged := s.flagged
    game_over := s.game_over
    won := s.won
    time_started := b.time_started
    game_time := s.game_time
    mines_remaining := s.mines_remaining }

/-- A player operation on the core surface. -/
inductive Op
  | reveal (x y : Int)
  | flag (x y : Int)
deriving DecidableEq

/-- Application of one operation to the board state. -/
def applyOp (b : Board) : Op → Board
  | .reveal x y => (reveal_square b x y).2
  | .flag x y => (toggle_flag b x y).2

/-- Application of a sequence of operations. -/
def runOps (b : Board) (ops : List Op) : Board :=
  ops.foldl applyOp b

/-! Semantic (spec-side) notions used to state the claims. -/

/-- In-bounds predicate for a cell. -/
def InB (w h : Nat) (c : Cell) : Prop :=
  0 ≤ c.1 ∧ c.1 < (w : Int) ∧ 0 ≤ c.2 ∧ c.2 < (h : Int)

instance (w h : Nat) (c : Cell) : Decidable (InB w h c) := by
  unfold InB; infer_instance

/-- All in-bounds cells of a `w × h` grid, as a finset. -/
def allCells (w h : Nat) : Finset Cell :=
  (Finset.range w ×ˢ Finset.range h).image fun p => ((p.1 : Int), (p.2 : Int))

/-- The grid-bounded 8-neighbourhood of a cell: distinct in-bounds cells
within Chebyshev distance 1, with no wraparound. -/
def nbhd (w h : Nat) (c : Cell) : Finset Cell :=
  (allCells w h).filter fun n =>
    n ≠ c ∧ (n.1 - c.1).natAbs ≤ 1 ∧ (n.2 - c.2).natAbs ≤ 1

/-- Well-formedness of the grid representation: `height` rows of
`width` entries, as built by the grid-setup helper. -/
def ShapeWF (b : Board) : Prop :=
  b.grid.length = b.height ∧ ∀ row ∈ b.grid, row.length = b.width

/-- The maximal connected region of zero-valued cells containing the
start, connectivity through unflagged zero-valued cells ("skipping
flagged cells"), as described by the specification. -/
inductive InRegion (b : Board) (s : Cell) : Cell → Prop
  | base : InRegion b s s
  | step {c n : Cell} : InRegion b s c → gridVal b.grid c.1 c.2 = some 0 →
      n ∈ nbhd b.width b.height c → gridVal b.grid n.1 n.2 = some 0 →
      n ∉ b.flagged → InRegion b s n

/-- A non-zero-valued cell immediately bordering the zero region. -/
def IsBorder (b : Board) (s n : Cell) : Prop :=
  (∃ c, InRegion b s c ∧ gridVal b.grid c.1 c.2 = some 0 ∧
    n ∈ nbhd b.width b.height c) ∧
  ∃ v, gridVal b.grid n.1 n.2 = some v ∧ v ≠ 0

/-- The closure actually computed by the reveal loop: cells reachable
from the start through zero-valued cells, never stepping into a cell of
`blocked` (the revealed and flagged sets at call time). -/
inductive Reaches (w h : Nat) (g : List (List Int)) (blocked : Finset Cell)
    (s : Cell) : Cell → Prop
  | base : Reaches w h g blocked s s
  | step {c n : Cell} : Reaches w h g blocked s c → gridVal g c.1 c.2 = some 0 →
      n ∈ get_adjacent_squares w h c.1 c.2 → n ∉ blocked →
      Reaches w h g blocked s n

/-! Basic lemmas about indexing and the geometric vocabulary. -/

lemma pyGet_ofNat {α : Type} (l : List α) (n : Nat) :
    pyGet l (n : Int) = l.get? n := by
  simp [pyGet]

lemma get?_mapIdx {α β : Type} (l : List α) (f : ℕ → α → β) (i : ℕ) :
    (l.mapIdx f).get? i = (l.get? i).map (f i) := by
  by_cases h : i < l.length
  · have h' : i < (l.mapIdx f).length := by simpa using h
    rw [List.get?_eq_get h, List.get?_eq_get h', List.get_mapIdx]
    rfl
  · have h1 : l.get? i = none := List.get?_eq_none.2 (by omega)
    have h2 : (l.mapIdx f).get? i = none :=
      List.get?_eq_none.2 (by rw [List.length_mapIdx]; omega)
    rw [h1, h2]
    rfl

lemma mem_allCells {w h : Nat} {c : Cell} : c ∈ allCells w h ↔ InB w h c := by
  obtain ⟨cx, cy⟩ := c
  simp only [allCells, InB, Finset.mem_image, Finset.mem_product, Finset.mem_range, Prod.exists]
  constructor
  · rintro ⟨a, b, ⟨ha, hb⟩, h⟩
    obtain ⟨rfl, rfl⟩ := Prod.mk.injEq .. ▸ h
    constructor
    · exact Int.ofNat_nonneg a
    refine ⟨by exact_mod_cast ha, Int.ofNat_nonneg b, by exact_mod_cast hb⟩
  · rintro ⟨h1, h2, h3, h4⟩
    refine ⟨cx.toNat, cy.toNat, ⟨?_, ?_⟩, ?_⟩ <;> [skip; skip; rw [Prod.mk.injEq]] <;> omega

lemma card_allCells (w h : Nat) : (allCells w h).card = w * h := by
  rw [allCells, Finset.card_image_of_injective _ (fun p q hpq => ?_)]
  · simp [Finset.card_product]
  · obtain ⟨p1, p2⟩ := p
    obtain ⟨q1, q2⟩ := q
    rw [Prod.mk.injEq] at hpq ⊢
    omega

lemma mem_get_adjacent_squares {w h : Nat} {x y : Int} {n : Cell} :
    n ∈ get_adjacent_squares w h x y ↔
      InB w h n ∧ n ≠ (x, y) ∧ (n.1 - x).natAbs ≤ 1 ∧ (n.2 - y).natAbs ≤ 1 := by
  obtain ⟨nx, ny⟩ := n
  simp only [get_adjacent_squares, List.mem_flatMap, List.mem_cons, List.not_mem_nil, or_false,
    InB]
  constructor
  · rintro ⟨dx, hdx, dy, hdy, hmem⟩
    split_ifs at hmem with hcond
    · simp only [List.mem_singleton, Prod.mk.injEq] at hmem
      obtain ⟨rfl, rfl⟩ := hmem
      refine ⟨⟨hcond.1, hcond.2.1, hcond.2.2.1, hcond.2.2.2.1⟩, ?_, ?_, ?_⟩
      · intro heq
        rw [Prod.mk.injEq] at heq
        exact hcond.2.2.2.2 ⟨by omega, by omega⟩
      · omega
      · omega
    · simp at hmem
  · rintro ⟨⟨h1, h2, h3, h4⟩, hne, hax, hay⟩
    have hne' : ¬(nx = x ∧ ny = y) := fun hh => hne (by rw [Prod.mk.injEq]; exact hh)
    have hcond : 0 ≤ x + (nx - x) ∧ x + (nx - x) < (w : Int) ∧ 0 ≤ y + (ny - y) ∧
        y + (ny - y) < (h : Int) ∧ ¬(nx - x = 0 ∧ ny - y = 0) :=
      ⟨by omega, by omega, by omega, by omega, fun hh => hne' ⟨by omega, by omega⟩⟩
    refine ⟨nx - x, by omega, ny - y, by omega, ?_⟩
    rw [if_pos hcond]
    simp only [List.mem_singleton, Prod.mk.injEq]
    omega

lemma mem_nbhd {w h : Nat} {c n : Cell} :
    n ∈ nbhd w h c ↔
      InB w h n ∧ n ≠ c ∧ (n.1 - c.1).natAbs ≤ 1 ∧ (n.2 - c.2).natAbs ≤ 1 := by
  simp only [nbhd, Finset.mem_filter, mem_allCells]

lemma adjacent_eq_nbhd {w h : Nat} {c n : Cell} :
    n ∈ get_adjacent_squares w h c.1 c.2 ↔ n ∈ nbhd w h c := by
  rw [mem_get_adjacent_squares, mem_nbhd]

lemma mem_safe_zone {w h : Nat} {fx fy : Int} {c : Cell} :
    c ∈ safe_zone w h fx fy ↔ c = (fx, fy) ∨ c ∈ nbhd w h (fx, fy) := by
  have hadj := @adjacent_eq_nbhd w h (fx, fy) c
  simp only [safe_zone, Finset.mem_insert, List.mem_toFinset]
  exact or_congr Iff.rfl hadj

lemma mem_available_positions {w h : Nat} {fx fy : Int} {c : Cell} :
    c ∈ available_positions w h fx fy ↔ InB w h c ∧ c ∉ safe_zone w h fx fy := by
  obtain ⟨cx, cy⟩ := c
  simp only [available_positions, List.mem_flatMap, List.mem_range, InB]
  constructor
  · rintro ⟨a, ha, b, hb, hmem⟩
    split_ifs at hmem with hsz
    · simp at hmem
    · simp only [List.mem_singleton, Prod.mk.injEq] at hmem
      obtain ⟨rfl, rfl⟩ := hmem
      exact ⟨⟨Int.ofNat_nonneg a, by exact_mod_cast ha, Int.ofNat_nonneg b, by exact_mod_cast hb⟩,
        hsz⟩
  · rintro ⟨⟨h1, h2, h3, h4⟩, hsz⟩
    refine ⟨cx.toNat, by omega, cy.toNat, by omega, ?_⟩
    have hc : ((cx.toNat : Int), (cy.toNat : Int)) = ((cx, cy) : Cell) := by
      rw [Prod.mk.injEq]; omega
    rw [hc]
    simp [hsz]

lemma pyGet_nonneg {α : Type} (l : List α) {i : Int} (h : 0 ≤ i) :
    pyGet l i = l.get? i.toNat := by
  rw [pyGet, if_pos h]

lemma gridVal_nonneg (g : List (List Int)) {x y : Int} (hx : 0 ≤ x) (hy : 0 ≤ y) :
    gridVal g x y = (g.get? y.toNat).bind fun row => row.get? x.toNat := by
  rw [gridVal, pyGet_nonneg _ hy]
  cases g.get? y.toNat with
  | none => rfl
  | some row => simp [pyGet_nonneg _ hx]

lemma shapeWF_place_mines {b : Board} (sel : Finset Cell) (hWF : ShapeWF b) :
    ShapeWF (place_mines b sel) := by
  obtain ⟨h1, h2⟩ := hWF
  constructor
  · simp [place_mines, h1]
  · intro row hrow
    simp only [place_mines] at hrow
    rw [List.mem_iff_get?] at hrow
    obtain ⟨i, hi⟩ := hrow
    rw [get?_mapIdx, get?_mapIdx] at hi
    cases hg : b.grid.get? i with
    | none => rw [hg] at hi; simp at hi
    | some r =>
      rw [hg] at hi
      simp only [Option.map_some'] at hi
      obtain rfl := Option.some.injEq .. ▸ hi
      simp only [List.length_mapIdx]
      exact h2 r (List.get?_mem hg)

lemma gridVal_place_mines (b : Board) (sel : Finset Cell) (hWF : ShapeWF b)
    {x y : Int} (hin : InB b.width b.height (x, y)) :
    gridVal (place_mines b sel).grid x y =
      some (if (x, y) ∈ sel then -1
        else (count_adjacent_mines b.width b.height sel x y : Int)) := by
  obtain ⟨hlen, hrows⟩ := hWF
  obtain ⟨hx0, hxw, hy0, hyh⟩ := hin
  have hylen : y.toNat < b.grid.length := by rw [hlen]; omega
  have hrow : b.grid.get? y.toNat = some (b.grid.get ⟨y.toNat, hylen⟩) :=
    List.get?_eq_get hylen
  set row := b.grid.get ⟨y.toNat, hylen⟩ with hrowdef
  have hrowlen : row.length = b.width := hrows row (b.grid.get_mem _ _)
  have hxlen : x.toNat < row.length := by rw [hrowlen]; omega
  have hentry : row.get? x.toNat = some (row.get ⟨x.toNat, hxlen⟩) :=
    List.get?_eq_get hxlen
  have hcast : (((x.toNat : Nat) : Int), ((y.toNat : Nat) : Int)) = ((x, y) : Cell) := by
    rw [Prod.mk.injEq]; omega
  rw [place_mines]
  rw [gridVal_nonneg _ hx0 hy0]
  rw [get?_mapIdx, get?_mapIdx, hrow]
  simp only [Option.map_some', Option.some_bind]
  rw [get?_mapIdx, get?_mapIdx, hentry]
  simp only [Option.map_some']
  rw [show (x.toNat : Int) = x by omega, show (y.toNat : Int) = y by omega]
  by_cases hsel : ((x, y) : Cell) ∈ sel <;> simp [hsel]

lemma fields_place_mines (b : Board) (sel : Finset Cell) :
    (place_mines b sel).width = b.width ∧ (place_mines b sel).height = b.height ∧
      (place_mines b sel).mine_positions = sel ∧
      (place_mines b sel).revealed = b.revealed ∧
      (place_mines b sel).flagged = b.flagged := by
  exact ⟨rfl, rfl, rfl, rfl, rfl⟩

lemma count_adjacent_eq_card (w h : Nat) (mines : Finset Cell) (x y : Int) :
    count_adjacent_mines w h mines x y = ((nbhd w h (x, y)) ∩ mines).card := by
  have hdel : (([-1, 0, 1] : List Int).flatMap fun dx =>
      ([-1, 0, 1] : List Int).map fun dy => ((dx, dy) : Cell)) =
      [(-1, -1), (-1, 0), (-1, 1), (0, -1), (0, 0), (0, 1), (1, -1), (1, 0), (1, 1)] := rfl
  rw [count_adjacent_mines, hdel, List.countP_eq_length_filter]
  have hnd : (([(-1, -1), (-1, 0), (-1, 1), (0, -1), (0, 0), (0, 1), (1, -1), (1, 0),
      (1, 1)] : List Cell).filter fun d =>
      decide (0 ≤ x + d.1 ∧ x + d.1 < (w : Int) ∧ 0 ≤ y + d.2 ∧
        y + d.2 < (h : Int) ∧ ¬(d.1 = 0 ∧ d.2 = 0) ∧ (x + d.1, y + d.2) ∈ mines)).Nodup :=
    List.Nodup.filter _ (by decide)
  rw [← List.toFinset_card_of_nodup hnd]
  apply Finset.card_nbij' (fun d => ((x + d.1, y + d.2) : Cell))
    (fun n => ((n.1 - x, n.2 - y) : Cell))
  · intro d hd
    simp only [List.mem_toFinset, List.mem_filter, decide_eq_true_eq] at hd
    obtain ⟨h1, h2, h3, h4, h5, h6⟩ := hd.2
    rw [Finset.mem_inter, mem_nbhd]
    have hdrange : (d.1 = -1 ∨ d.1 = 0 ∨ d.1 = 1) ∧ (d.2 = -1 ∨ d.2 = 0 ∨ d.2 = 1) := by
      obtain ⟨d1, d2⟩ := d
      simp only [List.mem_cons, List.not_mem_nil, or_false, Prod.mk.injEq] at hd
      rcases hd.1 with hc | hc | hc | hc | hc | hc | hc | hc | hc <;> omega
    refine ⟨⟨⟨h1, h2, h3, h4⟩, ?_, ?_, ?_⟩, h6⟩
    · intro heq
      rw [Prod.mk.injEq] at heq
      exact h5 ⟨by omega, by omega⟩
    · omega
    · omega
  · intro n hn
    rw [Finset.mem_inter, mem_nbhd] at hn
    obtain ⟨⟨⟨h1, h2, h3, h4⟩, hne, hax, hay⟩, hmem⟩ := hn
    have hne' : ¬(n.1 = x ∧ n.2 = y) := by
      intro hh
      apply hne
      obtain ⟨nx, ny⟩ := n
      rw [Prod.mk.injEq]
      exact hh
    simp only [List.mem_toFinset, List.mem_filter, decide_eq_true_eq]
    constructor
    · have hd1 : n.1 - x = -1 ∨ n.1 - x = 0 ∨ n.1 - x = 1 := by omega
      have hd2 : n.2 - y = -1 ∨ n.2 - y = 0 ∨ n.2 - y = 1 := by omega
      simp only [List.mem_cons, List.not_mem_nil, or_false, Prod.mk.injEq]
      rcases hd1 with hc1 | hc1 | hc1 <;> rcases hd2 with hc2 | hc2 | hc2 <;>
        simp [hc1, hc2]
    · have he : ((x + (n.1 - x), y + (n.2 - y)) : Cell) = n := by
        obtain ⟨nx, ny⟩ := n
        rw [Prod.mk.injEq]
        constructor <;> omega
      refine ⟨by omega, by omega, by omega, by omega, fun hh => hne' ⟨by omega, by omega⟩, ?_⟩
      rw [he]
      exact hmem
  · intro d hd
    obtain ⟨d1, d2⟩ := d
    rw [Prod.mk.injEq]
    constructor <;> omega
  · intro n hn
    obtain ⟨nx, ny⟩ := n
    rw [Prod.mk.injEq]
    constructor <;> omega

/-! Claim C1: safe first click. -/

/-- C1: for every well-formed board and in-bounds first click `(fx, fy)`,
after `place_mines` with any selection drawn from `available_positions`
(which is every possible outcome of the `random.sample` call), no cell of
the safe zone — the click or one of its grid-bounded neighbours — is in
`mine_positions` or carries the mine sentinel value `-1` in the grid. -/
theorem C1_safe_first_click (b : Board) (sel : Finset Cell) (fx fy : Int)
    (hWF : ShapeWF b) (hin : InB b.width b.height (fx, fy))
    (hsel : ∀ c ∈ sel, c ∈ available_positions b.width b.height fx fy) :
    ∀ c : Cell, (c = (fx, fy) ∨ c ∈ nbhd b.width b.height (fx, fy)) →
      c ∉ (place_mines b sel).mine_positions ∧
      gridVal (place_mines b sel).grid c.1 c.2 ≠ some (-1) := by
  intro c hc
  have hnotsel : c ∉ sel := by
    intro hcs
    have hav := hsel c hcs
    rw [mem_available_positions] at hav
    exact hav.2 (mem_safe_zone.2 hc)
  have hcin : InB b.width b.height c := by
    rcases hc with rfl | hnb
    · exact hin
    · exact (mem_nbhd.1 hnb).1
  refine ⟨hnotsel, ?_⟩
  obtain ⟨cx, cy⟩ := c
  rw [gridVal_place_mines b sel hWF hcin, if_neg hnotsel]
  intro hcontra
  rw [Option.some.injEq] at hcontra
  omega

/-- C1 witness: a concrete 3×1 board with one mine drawn for first click
`(0, 0)`; the safe zone cell `(0, 0)` is neither a mine position nor the
sentinel. -/
theorem C1_safe_first_click_witness :
    ((0, 0) : Cell) ∉ (place_mines (Board.init 3 1 1) (insert ((2 : Int), (0 : Int)) ∅)).mine_positions ∧
    gridVal (place_mines (Board.init 3 1 1) (insert ((2 : Int), (0 : Int)) ∅)).grid 0 0 ≠ some (-1) :=
  C1_safe_first_click (Board.init 3 1 1) (insert ((2 : Int), (0 : Int)) ∅) 0 0
    (by constructor <;> decide) (by decide) (by decide) (0, 0) (Or.inl rfl)

/-! Claim C3: adjacency counts. -/

/-- C3: after `place_mines`, every in-bounds non-mine cell's grid value is
exactly the number of mine positions among its grid-bounded neighbours
(`nbhd` contains no wraparound cells, so edge and corner cells range over
fewer than 8 neighbours). -/
theorem C3_adjacency_counts (b : Board) (sel : Finset Cell) (x y : Int)
    (hWF : ShapeWF b) (hin : InB b.width b.height (x, y)) (hnm : (x, y) ∉ sel) :
    gridVal (place_mines b sel).grid x y =
      some (((nbhd b.width b.height (x, y) ∩
        (place_mines b sel).mine_positions).card : Int)) := by
  rw [gridVal_place_mines b sel hWF hin, if_neg hnm, count_adjacent_eq_card]
  rfl

/-- C3 witness: on the 3×1 board with a mine at `(2, 0)`, cell `(1, 0)`
holds the value 1, the size of its mine neighbourhood. -/
theorem C3_adjacency_counts_witness :
    gridVal (place_mines (Board.init 3 1 1) (insert ((2 : Int), (0 : Int)) ∅)).grid 1 0 =
      some (((nbhd 3 1 ((1 : Int), (0 : Int)) ∩
        (place_mines (Board.init 3 1 1) (insert ((2 : Int), (0 : Int)) ∅)).mine_positions).card : Int)) :=
  C3_adjacency_counts (Board.init 3 1 1) (insert ((2 : Int), (0 : Int)) ∅) 1 0
    (by constructor <;> decide) (by decide) (by decide)

/-! Claim C9: reveal is a no-op on revealed or flagged cells. -/

/-- C9: calling `reveal_square` on a coordinate that is already revealed
or currently flagged returns the empty set and leaves the entire board
state unchanged. -/
theorem C9_reveal_noop (b : Board) (x y : Int)
    (h : (x, y) ∈ b.revealed ∨ (x, y) ∈ b.flagged) :
    reveal_square b x y = (some ∅, b) := by
  rw [reveal_square, revealWith, if_pos h]

/-- C9 witness: revealing the already-revealed `(0, 0)` on a concrete
board is a no-op. -/
theorem C9_reveal_noop_witness :
    reveal_square
      { Board.init 2 2 1 with
          revealed := insert ((0 : Int), (0 : Int)) ∅ } 0 0 =
      (some ∅,
        { Board.init 2 2 1 with
            revealed := insert ((0 : Int), (0 : Int)) ∅ }) :=
  C9_reveal_noop
    { Board.init 2 2 1 with
        revealed := insert ((0 : Int), (0 : Int)) ∅ } 0 0 (Or.inl (by decide))

/-! Claim C10: toggle_flag semantics. -/

/-- C10: on an unrevealed, unflagged cell `toggle_flag` returns `true`,
inserts the cell into `flagged` and decreases `mines_remaining` by exactly
one with no clamping; toggling the same cell again returns `false` and
restores the original board exactly (double toggle is the identity); and
on a revealed cell `toggle_flag` returns `false` with no state change. -/
theorem C10_toggle_flag_spec (b : Board) (x y : Int) :
    ((x, y) ∉ b.revealed → (x, y) ∉ b.flagged →
      (toggle_flag b x y).1 = true ∧
      (toggle_flag b x y).2.mines_remaining = b.mines_remaining - 1 ∧
      (toggle_flag b x y).2.flagged = insert (x, y) b.flagged ∧
      (toggle_flag (toggle_flag b x y).2 x y).1 = false ∧
      (toggle_flag (toggle_flag b x y).2 x y).2 = b) ∧
    ((x, y) ∈ b.revealed → toggle_flag b x y = (false, b)) := by
  constructor
  · intro h1 h2
    set b1 : Board :=
      { b with
          flagged := insert (x, y) b.flagged
          mines_remaining := b.mines_remaining - 1 } with hb1
    have e1 : toggle_flag b x y = (true, b1) := by
      rw [toggle_flag, if_neg h1, if_neg h2]
    have h1' : (x, y) ∉ b1.revealed := h1
    have h2' : (x, y) ∈ b1.flagged := Finset.mem_insert_self _ _
    set b2 : Board :=
      { b1 with
          flagged := b1.flagged.erase (x, y)
          mines_remaining := b1.mines_remaining + 1 } with hb2
    have e2 : toggle_flag b1 x y = (false, b2) := by
      rw [toggle_flag, if_neg h1', if_pos h2']
    have hback : b2 = b := by
      rw [hb2, hb1]
      simp only [Finset.erase_insert h2, sub_add_cancel]
    rw [e1]
    exact ⟨rfl, rfl, rfl, by rw [e2], by rw [e2, hback]⟩
  · intro h
    rw [toggle_flag, if_pos h]

/-- C10 witness: the flag toggle behaviour evaluated on a fresh 4×4 board
at `(2, 3)` and on a board where `(2, 3)` is revealed. -/
theorem C10_toggle_flag_spec_witness :
    ((toggle_flag (Board.init 4 4 2) 2 3).1 = true ∧
      (toggle_flag (Board.init 4 4 2) 2 3).2.mines_remaining =
        (Board.init 4 4 2).mines_remaining - 1 ∧
      (toggle_flag (Board.init 4 4 2) 2 3).2.flagged =
        insert (2, 3) (Board.init 4 4 2).flagged ∧
      (toggle_flag (toggle_flag (Board.init 4 4 2) 2 3).2 2 3).1 = false ∧
      (toggle_flag (toggle_flag (Board.init 4 4 2) 2 3).2 2 3).2 = Board.init 4 4 2) ∧
    toggle_flag
      { Board.init 4 4 2 with
          revealed := insert ((2 : Int), (3 : Int)) ∅ } 2 3 =
      (false,
        { Board.init 4 4 2 with
            revealed := insert ((2 : Int), (3 : Int)) ∅ }) :=
  ⟨(C10_toggle_flag_spec (Board.init 4 4 2) 2 3).1 (by decide) (by decide),
    (C10_toggle_flag_spec
      { Board.init 4 4 2 with
          revealed := insert ((2 : Int), (3 : Int)) ∅ } 2 3).2 (by decide)⟩

/-! Claim C6: out-of-bounds coordinates. -/

lemma pyGet_eq_none_iff {α : Type} (l : List α) (i : Int) :
    pyGet l i = none ↔ ¬(-(l.length : Int) ≤ i ∧ i < (l.length : Int)) := by
  rw [pyGet]
  split_ifs with h1 h2
  · rw [List.get?_eq_none]
    omega
  · rw [List.get?_eq_none]
    omega
  · simp only [true_iff]
    omega

lemma pyGet_neg_wrap {α : Type} (l : List α) {i : Int} (h1 : i < 0)
    (h2 : 0 ≤ (l.length : Int) + i) :
    pyGet l i = pyGet l (i + (l.length : Int)) := by
  rw [pyGet, pyGet, if_neg (by omega), if_pos h2, if_pos (by omega)]
  congr 1
  omega

/-- C6 counterexample: on a 2×2 board, `toggle_flag` at the out-of-bounds
coordinate `(5, 5)` does not fail: it returns `true` and records the flag,
so the operation silently succeeds instead of raising an
`InvalidCoordinate` condition. -/
theorem C6_counterexample :
    ¬ InB (Board.init 2 2 1).width (Board.init 2 2 1).height ((5 : Int), (5 : Int)) ∧
    (toggle_flag (Board.init 2 2 1) 5 5).1 = true ∧
    (toggle_flag (Board.init 2 2 1) 5 5).2.flagged = insert ((5 : Int), (5 : Int)) ∅ := by
  refine ⟨by decide, by decide, by decide⟩

/-- C6 amended: the core performs no coordinate validation at all.
`toggle_flag` succeeds on any unrevealed, unflagged coordinate, in or out
of bounds, recording the flag; `is_mine` merely reports set membership, so
it returns `false` out of bounds whenever the mine set is in-bounds;
`get_value` follows Python list indexing — it raises `IndexError`
(modelled as `none`) exactly when an index falls outside `[-len, len)`
and wraps negative in-range indices instead of clamping; and
`reveal_square` on a coordinate whose grid read raises marks the cell
revealed and then propagates the error.  No `InvalidCoordinate` condition
exists anywhere. -/
theorem C6_amended (b : Board) (x y : Int) :
    ((x, y) ∉ b.revealed → (x, y) ∉ b.flagged →
      (toggle_flag b x y).1 = true ∧
      (toggle_flag b x y).2.flagged = insert (x, y) b.flagged) ∧
    ((∀ c ∈ b.mine_positions, InB b.width b.height c) →
      ¬ InB b.width b.height (x, y) → is_mine b x y = false) ∧
    (ShapeWF b →
      (get_value b x y = none ↔
        ¬(-(b.height : Int) ≤ y ∧ y < (b.height : Int) ∧
          -(b.width : Int) ≤ x ∧ x < (b.width : Int)))) ∧
    (ShapeWF b → y < 0 → 0 ≤ (b.height : Int) + y →
      get_value b x y = get_value b x (y + (b.height : Int))) ∧
    (get_value b x y = none → (x, y) ∉ b.revealed → (x, y) ∉ b.flagged →
      reveal_square b x y = (none, { b with revealed := insert (x, y) b.revealed })) := by
  refine ⟨?_, ?_, ?_, ?_, ?_⟩
  · intro h1 h2
    rw [toggle_flag, if_neg h1, if_neg h2]
    exact ⟨rfl, rfl⟩
  · intro hmines hout
    rw [is_mine, decide_eq_false_iff_not]
    intro hmem
    exact hout (hmines _ hmem)
  · intro hWF
    rw [get_value, gridVal]
    cases hrow : pyGet b.grid y with
    | none =>
      rw [pyGet_eq_none_iff, hWF.1] at hrow
      simp only [Option.none_bind, true_iff]
      omega
    | some row =>
      have hyin : -(b.grid.length : Int) ≤ y ∧ y < (b.grid.length : Int) := by
        by_contra hc
        rw [← pyGet_eq_none_iff] at hc
        rw [hrow] at hc
        exact Option.noConfusion hc
      have hrowmem : row ∈ b.grid := by
        rw [pyGet] at hrow
        split_ifs at hrow
        · exact List.get?_mem hrow
        · exact List.get?_mem hrow
      have hrlen : row.length = b.width := hWF.2 row hrowmem
      rw [hWF.1] at hyin
      simp only [Option.some_bind]
      rw [pyGet_eq_none_iff, hrlen]
      constructor
      · intro hc hran
        exact hc ⟨hran.2.2.1, hran.2.2.2⟩
      · intro hc hx
        exact hc ⟨hyin.1, hyin.2, hx.1, hx.2⟩
  · intro hWF hneg hsum
    rw [get_value, get_value, gridVal, gridVal,
      pyGet_neg_wrap b.grid hneg (by rw [hWF.1]; omega), hWF.1]
  · intro hval h1 h2
    rw [reveal_square, revealWith, if_neg (by tauto)]
    rw [get_value] at hval
    simp only [hval]

/-- C6 witness: evaluation on a concrete 2×2 board: `toggle_flag` and
`is_mine` succeed at `(5, 5)`, `get_value` raises there, a negative row
index wraps, and `reveal_square` at `(5, 5)` marks the cell revealed and
propagates the index error. -/
theorem C6_amended_witness :
    ((toggle_flag (Board.init 2 2 1) 5 5).1 = true ∧
      (toggle_flag (Board.init 2 2 1) 5 5).2.flagged =
        insert (5, 5) (Board.init 2 2 1).flagged) ∧
    is_mine (Board.init 2 2 1) 5 5 = false ∧
    (get_value (Board.init 2 2 1) 5 5 = none ↔
      ¬(-((Board.init 2 2 1).height : Int) ≤ 5 ∧ 5 < ((Board.init 2 2 1).height : Int) ∧
        -((Board.init 2 2 1).width : Int) ≤ 5 ∧ 5 < ((Board.init 2 2 1).width : Int))) ∧
    get_value (Board.init 2 2 1) 0 (-1) =
      get_value (Board.init 2 2 1) 0 (-1 + ((Board.init 2 2 1).height : Int)) ∧
    reveal_square (Board.init 2 2 1) 5 5 =
      (none,
        { Board.init 2 2 1 with
            revealed := insert ((5 : Int), (5 : Int)) (Board.init 2 2 1).revealed }) :=
  ⟨(C6_amended (Board.init 2 2 1) 5 5).1 (by decide) (by decide),
    (C6_amended (Board.init 2 2 1) 5 5).2.1 (by decide) (by decide),
    (C6_amended (Board.init 2 2 1) 5 5).2.2.1 (by constructor <;> decide),
    (C6_amended (Board.init 2 2 1) 0 (-1)).2.2.2.1 (by constructor <;> decide)
      (by decide) (by decide),
    (C6_amended (Board.init 2 2 1) 5 5).2.2.2.2 (by decide) (by decide) (by decide)⟩

/-! Claim C7: restore of inconsistent snapshots. -/

/-- A snapshot whose grid shape contradicts its recorded dimensions and
whose mine count contradicts `num_mines`. -/
def corruptState : SaveState :=
  { width := 3
    height := 2
    num_mines := 5
    grid := [[0]]
    mine_positions := ∅
    first_move := false
    revealed := ∅
    flagged := ∅
    game_over := false
    won := false
    game_time := 7
    mines_remaining := -4 }

/-- C7 counterexample: `load_save_state` applied to a snapshot with
inconsistent dimensions and a mine-count mismatch does not fail: it
succeeds and overwrites the prior board, whose state is not preserved. -/
theorem C7_counterexample :
    corruptState.grid.length ≠ corruptState.height ∧
    corruptState.mine_positions.card ≠ corruptState.num_mines ∧
    (load_save_state (Board.init 1 1 0) corruptState).width = 3 ∧
    (load_save_state (Board.init 1 1 0) corruptState).grid = [[0]] ∧
    load_save_state (Board.init 1 1 0) corruptState ≠ Board.init 1 1 0 := by
  refine ⟨by decide, by decide, by decide, by decide, by decide⟩

/-- C7 amended: `load_save_state` performs no validation whatsoever: given
any snapshot, even one with mismatched grid shape or mine count, it
succeeds and unconditionally overwrites every board field (except the
never-persisted `time_started`) with the snapshot's values, so the prior
board state is replaced rather than preserved and the inconsistency
persists in the loaded board. -/
theorem C7_amended (b : Board) (s : SaveState)
    (hbad : ¬(s.grid.length = s.height ∧ ∀ row ∈ s.grid, row.length = s.width) ∨
      s.mine_positions.card ≠ s.num_mines) :
    load_save_state b s =
      { width := s.width
        height := s.height
        num_mines := s.num_mines
        grid := s.grid
        mine_positions := s.mine_positions
        first_move := s.first_move
        revealed := s.revealed
        flagged := s.flagged
        game_over := s.game_over
        won := s.won
        time_started := b.time_started
        game_time := s.game_time
        mines_remaining := s.mines_remaining } ∧
    ¬(ShapeWF (load_save_state b s) ∧
      (load_save_state b s).mine_positions.card = (load_save_state b s).num_mines) := by
  refine ⟨rfl, ?_⟩
  rw [ShapeWF]
  intro hcon
  rcases hbad with hb | hb
  · exact hb hcon.1
  · exact hb hcon.2

/-- C7 witness: loading the concrete corrupt snapshot over a fresh 1×1
board succeeds with the snapshot's fields verbatim, and the loaded board
is itself inconsistent. -/
theorem C7_amended_witness :
    load_save_state (Board.init 1 1 0) corruptState =
      { width := corruptState.width
        height := corruptState.height
        num_mines := corruptState.num_mines
        grid := corruptState.grid
        mine_positions := corruptState.mine_positions
        first_move := corruptState.first_move
        revealed := corruptState.revealed
        flagged := corruptState.flagged
        game_over := corruptState.game_over
        won := corruptState.won
        time_started := (Board.init 1 1 0).time_started
        game_time := corruptState.game_time
        mines_remaining := corruptState.mines_remaining } ∧
    ¬(ShapeWF (load_save_state (Board.init 1 1 0) corruptState) ∧
      (load_save_state (Board.init 1 1 0) corruptState).mine_positions.card =
        (load_save_state (Board.init 1 1 0) corruptState).num_mines) :=
  C7_amended (Board.init 1 1 0) corruptState (Or.inl (by decide))

/-! Claim C4: win and loss status. -/

/-- The 3×1 board with one mine drawn at `(2, 0)` after a first click at
`(0, 0)`; its grid is `[[0, 1, -1]]`. -/
def mineBoard : Board :=
  place_mines (Board.init 3 1 1) (insert ((2 : Int), (0 : Int)) ∅)

/-- C4 counterexample: on `mineBoard`, revealing the mine at `(2, 0)`
through `reveal_square` marks it revealed but the board's status fields
are untouched: `game_over` and `won` both remain `false`, so the status
is not `Lost` even though the just-revealed cell was a mine. -/
theorem C4_counterexample :
    is_mine mineBoard 2 0 = true ∧
    (2, 0) ∈ (reveal_square mineBoard 2 0).2.revealed ∧
    (reveal_square mineBoard 2 0).2.game_over = false ∧
    (reveal_square mineBoard 2 0).2.won = false := by
  refine ⟨by decide, by decide, by decide, by decide⟩

/-- C4 amended: the board engine has no status transition at all:
`reveal_square` never modifies `game_over` or `won`; revealing an
unrevealed, unflagged mine cell (grid value `-1`, hence non-zero) marks
exactly that cell revealed with no flood expansion and returns it as the
only newly revealed cell; and win detection lives in the GUI's
`check_win`, a pure function that holds exactly when
`|revealed| = width*height - num_mines` over the integers — it uses the
requested mine count, not `|mine_positions|`, and does not check that no
mine is revealed. -/
theorem C4_amended (b : Board) (x y : Int) :
    ((reveal_square b x y).2.game_over = b.game_over ∧
      (reveal_square b x y).2.won = b.won) ∧
    (∀ v : Int, gridVal b.grid x y = some v → v ≠ 0 →
      (x, y) ∉ b.revealed → (x, y) ∉ b.flagged →
      reveal_square b x y =
        (some (insert (x, y) ∅), { b with revealed := insert (x, y) b.revealed })) ∧
    (check_win b = true ↔
      (b.revealed.card : Int) = (b.width * b.height : Int) - (b.num_mines : Int)) := by
  refine ⟨?_, ?_, ?_⟩
  · rw [reveal_square, revealWith]
    split
    · exact ⟨rfl, rfl⟩
    · split
      · exact ⟨rfl, rfl⟩
      · split
        · exact ⟨rfl, rfl⟩
        · exact ⟨rfl, rfl⟩
  · intro v hv hv0 h1 h2
    rw [reveal_square, revealWith, if_neg (by tauto)]
    simp only [hv]
    rw [if_neg hv0, insert_emptyc_eq]
  · rw [check_win, decide_eq_true_eq]

/-- C4 witness: the mine reveal on `mineBoard` evaluated concretely, and
the `check_win` characterization on a fresh 2×2 board with 4 mines
requested (vacuously "won" with nothing revealed, because `check_win`
uses the requested count). -/
theorem C4_amended_witness :
    ((reveal_square mineBoard 2 0).2.game_over = mineBoard.game_over ∧
      (reveal_square mineBoard 2 0).2.won = mineBoard.won) ∧
    reveal_square mineBoard 2 0 =
      (some (insert (2, 0) ∅),
        { mineBoard with revealed := insert ((2 : Int), (0 : Int)) mineBoard.revealed }) ∧
    (check_win (Board.init 2 2 4) = true ↔
      ((Board.init 2 2 4).revealed.card : Int) =
        ((Board.init 2 2 4).width * (Board.init 2 2 4).height : Int) -
          ((Board.init 2 2 4).num_mines : Int)) :=
  ⟨(C4_amended mineBoard 2 0).1,
    (C4_amended mineBoard 2 0).2.1 (-1) (by decide) (by decide) (by decide) (by decide),
    (C4_amended (Board.init 2 2 4) 0 0).2.2⟩

/-! Claim C5: snapshot round trip. -/

lemma load_get_save (b b0 : Board) :
    load_save_state b0 (get_save_state b) = { b with time_started := b0.time_started } :=
  rfl

lemma toggle_flag_time_started (b : Board) (t : Option Nat) (x y : Int) :
    toggle_flag { b with time_started := t } x y =
      ((toggle_flag b x y).1, { (toggle_flag b x y).2 with time_started := t }) := by
  simp only [toggle_flag]
  split_ifs <;> rfl

lemma reveal_square_time_started (b : Board) (t : Option Nat) (x y : Int) :
    reveal_square { b with time_started := t } x y =
      ((reveal_square b x y).1, { (reveal_square b x y).2 with time_started := t }) := by
  simp only [reveal_square, revealWith]
  by_cases hg : (x, y) ∈ b.revealed ∨ (x, y) ∈ b.flagged
  · rw [if_pos hg, if_pos hg]
  · rw [if_neg hg, if_neg hg]
    cases hv : gridVal b.grid x y with
    | none => rfl
    | some v =>
      dsimp only
      split_ifs <;> rfl

lemma applyOp_time_started (b : Board) (t : Option Nat) (op : Op) :
    applyOp { b with time_started := t } op = { applyOp b op with time_started := t } := by
  cases op with
  | reveal x y =>
    show (reveal_square { b with time_started := t } x y).2 = _
    rw [reveal_square_time_started]
    rfl
  | flag x y =>
    show (toggle_flag { b with time_started := t } x y).2 = _
    rw [toggle_flag_time_started]
    rfl

lemma runOps_time_started (ops : List Op) (b : Board) (t : Option Nat) :
    runOps { b with time_started := t } ops = { runOps b ops with time_started := t } := by
  induction ops generalizing b with
  | nil => rfl
  | cons op rest ih =>
    show runOps (applyOp { b with time_started := t } op) rest = _
    rw [applyOp_time_started, ih]
    rfl

/-- C5: restoring a board from its own snapshot produces a board that
behaves identically under every subsequent sequence of reveal and
toggle-flag operations: the resulting revealed set, flagged set and
status fields (`game_over`, `won`) agree, as does the rest of the
persisted state. -/
theorem C5_snapshot_round_trip (b b0 : Board) (ops : List Op) :
    (runOps (load_save_state b0 (get_save_state b)) ops).revealed =
      (runOps b ops).revealed ∧
    (runOps (load_save_state b0 (get_save_state b)) ops).flagged =
      (runOps b ops).flagged ∧
    (runOps (load_save_state b0 (get_save_state b)) ops).game_over =
      (runOps b ops).game_over ∧
    (runOps (load_save_state b0 (get_save_state b)) ops).won =
      (runOps b ops).won ∧
    (runOps (load_save_state b0 (get_save_state b)) ops).mines_remaining =
      (runOps b ops).mines_remaining := by
  rw [load_get_save, runOps_time_started]
  exact ⟨rfl, rfl, rfl, rfl, rfl⟩

/-! Claim C8: revealed and flagged stay disjoint. -/

lemma processAdj_mem_cases (g : List (List Int)) (blocked : Finset Cell) :
    ∀ (adj : List Cell) (newly : Finset Cell) (c : Cell),
      c ∈ (processAdj g blocked adj newly).1 → c ∈ newly ∨ c ∉ blocked := by
  intro adj
  induction adj with
  | nil => exact fun newly c hc => Or.inl hc
  | cons n rest ih =>
    intro newly c hc
    simp only [processAdj] at hc
    by_cases hcond : n ∉ blocked ∧ n ∉ newly
    · rw [if_pos hcond] at hc
      cases hgv : gridVal g n.1 n.2 with
      | none =>
        rw [hgv] at hc
        dsimp only at hc
        rcases Finset.mem_insert.1 hc with rfl | hmem
        · exact Or.inr hcond.1
        · exact Or.inl hmem
      | some v =>
        rw [hgv] at hc
        rcases hps : processAdj g blocked rest (insert n newly) with ⟨nf, pso⟩
        rw [hps] at hc
        have hnf : c ∈ nf := by
          cases pso <;> exact hc
        have := ih (insert n newly) c (by rw [hps]; exact hnf)
        rcases this with hmem | hnb
        · rcases Finset.mem_insert.1 hmem with rfl | hmem2
          · exact Or.inr hcond.1
          · exact Or.inl hmem2
        · exact Or.inr hnb
    · rw [if_neg hcond] at hc
      exact ih newly c hc

lemma floodAux_mem_cases (w h : Nat) (g : List (List Int)) (blocked : Finset Cell)
    (sched : List Cell → List Cell → List Cell) :
    ∀ (fuel : Nat) (newly : Finset Cell) (stack : List Cell) (c : Cell),
      c ∈ (floodAux w h g blocked sched fuel newly stack).1 → c ∈ newly ∨ c ∉ blocked := by
  intro fuel
  induction fuel with
  | zero =>
    intro newly stack c hc
    cases stack with
    | nil => exact Or.inl hc
    | cons hd rest => exact Or.inl hc
  | succ fuel ih =>
    intro newly stack c hc
    cases stack with
    | nil => exact Or.inl hc
    | cons hd rest =>
      simp only [floodAux] at hc
      rcases hps : processAdj g blocked (get_adjacent_squares w h hd.1 hd.2) newly
        with ⟨newly1, pso⟩
      rw [hps] at hc
      have hstep : ∀ d : Cell, d ∈ newly1 → d ∈ newly ∨ d ∉ blocked := by
        intro d hd1
        exact processAdj_mem_cases g blocked _ newly d (by rw [hps]; exact hd1)
      cases pso with
      | none => exact hstep c hc
      | some ps =>
        rcases ih newly1 (sched rest ps) c hc with hmem | hnb
        · exact hstep c hmem
        · exact Or.inr hnb

lemma reveal_square_flagged_eq (b : Board) (x y : Int) :
    (reveal_square b x y).2.flagged = b.flagged := by
  rw [reveal_square, revealWith]
  split
  · rfl
  · split
    · rfl
    · split
      · rfl
      · rfl

lemma reveal_square_revealed_cases (b : Board) (x y : Int) (c : Cell) :
    c ∈ (reveal_square b x y).2.revealed → c ∈ b.revealed ∨ c ∉ b.flagged := by
  intro hc
  rw [reveal_square, revealWith] at hc
  by_cases hg : (x, y) ∈ b.revealed ∨ (x, y) ∈ b.flagged
  · rw [if_pos hg] at hc
    exact Or.inl hc
  · rw [if_neg hg] at hc
    push_neg at hg
    cases hv : gridVal b.grid x y with
    | none =>
      rw [hv] at hc
      dsimp only at hc
      rcases Finset.mem_insert.1 hc with rfl | hmem
      · exact Or.inr hg.2
      · exact Or.inl hmem
    | some v =>
      rw [hv] at hc
      dsimp only at hc
      by_cases hv0 : v = 0
      · rw [if_pos hv0] at hc
        dsimp only at hc
        rcases Finset.mem_union.1 hc with hmem | hflood
        · exact Or.inl hmem
        · rcases floodAux_mem_cases b.width b.height b.grid (b.revealed ∪ b.flagged)
            stackSched (b.width * b.height + 2) {(x, y)} [(x, y)] c hflood with hs | hnb
          · rcases Finset.mem_singleton.1 hs with rfl
            exact Or.inr hg.2
          · exact Or.inr fun hf => hnb (Finset.mem_union_right _ hf)
      · rw [if_neg hv0] at hc
        dsimp only at hc
        rcases Finset.mem_insert.1 hc with rfl | hmem
        · exact Or.inr hg.2
        · exact Or.inl hmem

lemma applyOp_disjoint (b : Board) (op : Op)
    (hd : Disjoint b.revealed b.flagged) :
    Disjoint (applyOp b op).revealed (applyOp b op).flagged := by
  cases op with
  | reveal x y =>
    rw [Finset.disjoint_left]
    intro c hc hcf
    have hcf' : c ∈ (reveal_square b x y).2.flagged := hcf
    rw [reveal_square_flagged_eq] at hcf'
    rcases reveal_square_revealed_cases b x y c hc with hmem | hnf
    · exact Finset.disjoint_left.1 hd hmem hcf'
    · exact hnf hcf'
  | flag x y =>
    show Disjoint (toggle_flag b x y).2.revealed (toggle_flag b x y).2.flagged
    rw [toggle_flag]
    by_cases h1 : (x, y) ∈ b.revealed
    · rw [if_pos h1]
      exact hd
    · rw [if_neg h1]
      by_cases h2 : (x, y) ∈ b.flagged
      · rw [if_pos h2]
        exact hd.mono_right (Finset.erase_subset _ _)
      · rw [if_neg h2]
        rw [Finset.disjoint_left]
        intro c hc hcf
        rcases Finset.mem_insert.1 hcf with rfl | hmem
        · exact h1 hc
        · exact Finset.disjoint_left.1 hd hc hmem

lemma runOps_disjoint (ops : List Op) (b : Board)
    (hd : Disjoint b.revealed b.flagged) :
    Disjoint (runOps b ops).revealed (runOps b ops).flagged := by
  induction ops generalizing b with
  | nil => exact hd
  | cons op rest ih => exact ih (applyOp b op) (applyOp_disjoint b op hd)

/-- C8: after every sequence of reveal and toggle-flag operations (flood
expansions included) starting from a freshly constructed board, the
revealed set and the flagged set are disjoint. -/
theorem C8_revealed_flagged_disjoint (w h m : Nat) (ops : List Op) :
    Disjoint (runOps (Board.init w h m) ops).revealed
      (runOps (Board.init w h m) ops).flagged :=
  runOps_disjoint ops (Board.init w h m) (by simp [Board.init])

/-! Claim C2: flood fill.  First, a full characterization of one
iteration body (`processAdj`): the new `newly` set adds exactly the
unblocked listed neighbours, and the pushes are exactly the fresh
zero-valued ones, without duplicates; together with a cardinality bound
used for the loop's fuel. -/

lemma processAdj_spec (g : List (List Int)) (blocked : Finset Cell) (A : Finset Cell) :
    ∀ (adj : List Cell) (newly nf : Finset Cell) (pso : Option (List Cell)),
      processAdj g blocked adj newly = (nf, pso) →
      (∀ n ∈ adj, (gridVal g n.1 n.2).isSome) →
      (∀ n ∈ adj, n ∈ A) →
      ∃ ps : List Cell, pso = some ps ∧
        (∀ c, c ∈ nf ↔ c ∈ newly ∨ (c ∈ adj ∧ c ∉ blocked)) ∧
        ps.Nodup ∧
        (∀ p ∈ ps, p ∈ nf ∧ p ∉ newly ∧ gridVal g p.1 p.2 = some 0) ∧
        (∀ p, p ∈ nf → p ∉ newly → gridVal g p.1 p.2 = some 0 → p ∈ ps) ∧
        (A \ nf).card + ps.length ≤ (A \ newly).card := by
  intro adj
  induction adj with
  | nil =>
    intro newly nf pso heq _ _
    rw [processAdj] at heq
    obtain ⟨rfl, rfl⟩ := Prod.mk.injEq .. ▸ heq
    exact ⟨[], rfl, fun c => by simp, List.nodup_nil,
      fun p hp => absurd hp (List.not_mem_nil p),
      fun p hp1 hp2 _ => absurd hp1 hp2, by simp⟩
  | cons n rest ih =>
    intro newly nf pso heq hsome hA
    have hnsome := hsome n (List.mem_cons_self n rest)
    have hnA := hA n (List.mem_cons_self n rest)
    have hsome' : ∀ m ∈ rest, (gridVal g m.1 m.2).isSome :=
      fun m hm => hsome m (List.mem_cons_of_mem n hm)
    have hA' : ∀ m ∈ rest, m ∈ A := fun m hm => hA m (List.mem_cons_of_mem n hm)
    simp only [processAdj] at heq
    by_cases hcond : n ∉ blocked ∧ n ∉ newly
    · rw [if_pos hcond] at heq
      cases hgv : gridVal g n.1 n.2 with
      | none => rw [hgv] at hnsome; exact absurd hnsome (by simp)
      | some v =>
        rw [hgv] at heq
        rcases hrec : processAdj g blocked rest (insert n newly) with ⟨nf', pso'⟩
        rw [hrec] at heq
        obtain ⟨ps', rfl, hmem, hnd, hpsmem, hpscomp, hcard⟩ :=
          ih (insert n newly) nf' pso' hrec hsome' hA'
        obtain ⟨h1, h2⟩ := Prod.mk.injEq .. ▸ heq
        subst h1
        subst h2
        have hninnf : n ∈ nf' := (hmem n).2 (Or.inl (Finset.mem_insert_self n newly))
        have hmemfin : ∀ c, c ∈ nf' ↔ c ∈ newly ∨ (c ∈ n :: rest ∧ c ∉ blocked) := by
          intro c
          rw [hmem c]
          constructor
          · rintro (hc | hc)
            · rcases Finset.mem_insert.1 hc with rfl | hc2
              · exact Or.inr ⟨List.mem_cons_self _ _, hcond.1⟩
              · exact Or.inl hc2
            · exact Or.inr ⟨List.mem_cons_of_mem n hc.1, hc.2⟩
          · rintro (hc | hc)
            · exact Or.inl (Finset.mem_insert_of_mem hc)
            · rcases List.mem_cons.1 hc.1 with rfl | hc2
              · exact Or.inl (Finset.mem_insert_self _ _)
              · exact Or.inr ⟨hc2, hc.2⟩
        have hpsnotn : n ∉ ps' := by
          intro hn
          exact (hpsmem n hn).2.1 (Finset.mem_insert_self n newly)
        have hcard2 : (A \ insert n newly).card + 1 ≤ (A \ newly).card := by
          have hmemdiff : n ∈ A \ newly := Finset.mem_sdiff.2 ⟨hnA, hcond.2⟩
          have hsd : A \ insert n newly = (A \ newly).erase n := by
            ext m
            simp only [Finset.mem_sdiff, Finset.mem_insert, Finset.mem_erase]
            tauto
          rw [hsd, Finset.card_erase_of_mem hmemdiff]
          have := Finset.card_pos.2 ⟨n, hmemdiff⟩
          omega
        by_cases hv0 : v = 0
        · subst hv0
          rw [if_pos rfl]
          refine ⟨n :: ps', rfl, hmemfin, List.nodup_cons.2 ⟨hpsnotn, hnd⟩, ?_, ?_, ?_⟩
          · intro p hp
            rcases List.mem_cons.1 hp with rfl | hp2
            · exact ⟨hninnf, hcond.2, hgv⟩
            · obtain ⟨hp1, hp2', hp3⟩ := hpsmem p hp2
              refine ⟨hp1, fun hc => hp2' (Finset.mem_insert_of_mem hc), hp3⟩
          · intro p hp1 hp2 hp3
            by_cases hpn : p = n
            · subst hpn
              exact List.mem_cons_self _ _
            · exact List.mem_cons_of_mem n
                (hpscomp p hp1 (fun hc => hpn (by
                  rcases Finset.mem_insert.1 hc with h | h
                  · exact h
                  · exact absurd h hp2)) hp3)
          · simp only [List.length_cons]
            omega
        · rw [if_neg hv0]
          refine ⟨ps', rfl, hmemfin, hnd, ?_, ?_, ?_⟩
          · intro p hp
            obtain ⟨hp1, hp2', hp3⟩ := hpsmem p hp
            exact ⟨hp1, fun hc => hp2' (Finset.mem_insert_of_mem hc), hp3⟩
          · intro p hp1 hp2 hp3
            by_cases hpn : p = n
            · subst hpn
              rw [hgv] at hp3
              exact absurd (Option.some.injEq .. ▸ hp3) hv0
            · exact hpscomp p hp1 (fun hc => hpn (by
                rcases Finset.mem_insert.1 hc with h | h
                · exact h
                · exact absurd h hp2)) hp3
          · omega
    · rw [if_neg hcond] at heq
      obtain ⟨ps, rfl, hmem, hnd, hpsmem, hpscomp, hcard⟩ :=
        ih newly nf pso heq hsome' hA'
      refine ⟨ps, rfl, ?_, hnd, hpsmem, hpscomp, hcard⟩
      intro c
      rw [hmem c]
      constructor
      · rintro (hc | hc)
        · exact Or.inl hc
        · exact Or.inr ⟨List.mem_cons_of_mem n hc.1, hc.2⟩
      · rintro (hc | hc)
        · exact Or.inl hc
        · rcases List.mem_cons.1 hc.1 with rfl | hc2
          · push_neg at hcond
            exact Or.inl (hcond hc.2)
          · exact Or.inr ⟨hc2, hc.2⟩

lemma closed_reaches_iff (w h : Nat) (g : List (List Int)) (blocked : Finset Cell)
    (s : Cell) (newly : Finset Cell)
    (hs : s ∈ newly)
    (hreach : ∀ c ∈ newly, Reaches w h g blocked s c)
    (hclosed : ∀ c ∈ newly, gridVal g c.1 c.2 = some 0 →
      ∀ n ∈ get_adjacent_squares w h c.1 c.2, n ∉ blocked → n ∈ newly) :
    ∀ c, c ∈ newly ↔ Reaches w h g blocked s c := by
  intro c
  constructor
  · exact hreach c
  · intro hr
    induction hr with
    | base => exact hs
    | step hrc hzero hadj hnb ihc => exact hclosed _ ihc hzero _ hadj hnb

lemma floodAux_spec (w h : Nat) (g : List (List Int)) (blocked : Finset Cell)
    (sched : List Cell → List Cell → List Cell)
    (hslen : ∀ rest ps : List Cell, (sched rest ps).length = rest.length + ps.length)
    (hsmem : ∀ (rest ps : List Cell) (c : Cell), c ∈ sched rest ps ↔ c ∈ rest ∨ c ∈ ps)
    (hg : ∀ c : Cell, InB w h c → (gridVal g c.1 c.2).isSome)
    (s : Cell) :
    ∀ (fuel : Nat) (newly : Finset Cell) (stack : List Cell),
      (allCells w h \ newly).card + stack.length ≤ fuel →
      s ∈ newly →
      (∀ c ∈ stack, c ∈ newly ∧ gridVal g c.1 c.2 = some 0) →
      (∀ c ∈ newly, Reaches w h g blocked s c) →
      (∀ c ∈ newly, gridVal g c.1 c.2 = some 0 →
        c ∈ stack ∨ ∀ n ∈ get_adjacent_squares w h c.1 c.2, n ∉ blocked → n ∈ newly) →
      (floodAux w h g blocked sched fuel newly stack).2 = false ∧
      (∀ c, c ∈ (floodAux w h g blocked sched fuel newly stack).1 ↔
        Reaches w h g blocked s c) := by
  intro fuel
  induction fuel with
  | zero =>
    intro newly stack hfuel hs hstack hreach hclosed
    have hstack0 : stack = [] := List.length_eq_zero.1 (by omega)
    subst hstack0
    simp only [floodAux]
    refine ⟨trivial, closed_reaches_iff w h g blocked s newly hs hreach ?_⟩
    intro c hc hzero
    rcases hclosed c hc hzero with hin | hall
    · exact absurd hin (List.not_mem_nil c)
    · exact hall
  | succ fuel ih =>
    intro newly stack hfuel hs hstack hreach hclosed
    cases stack with
    | nil =>
      simp only [floodAux]
      refine ⟨trivial, closed_reaches_iff w h g blocked s newly hs hreach ?_⟩
      intro c hc hzero
      rcases hclosed c hc hzero with hin | hall
      · exact absurd hin (List.not_mem_nil c)
      · exact hall
    | cons hd rest =>
      obtain ⟨hhdmem, hhdzero⟩ := hstack hd (List.mem_cons_self hd rest)
      rcases hps : processAdj g blocked (get_adjacent_squares w h hd.1 hd.2) newly
        with ⟨nf, pso⟩
      have hadj_some : ∀ n ∈ get_adjacent_squares w h hd.1 hd.2,
          (gridVal g n.1 n.2).isSome :=
        fun n hn => hg n (mem_get_adjacent_squares.1 hn).1
      have hadj_A : ∀ n ∈ get_adjacent_squares w h hd.1 hd.2, n ∈ allCells w h :=
        fun n hn => mem_allCells.2 (mem_get_adjacent_squares.1 hn).1
      obtain ⟨ps, rfl, hmem, hnd, hpsmem, hpscomp, hcard⟩ :=
        processAdj_spec g blocked (allCells w h) _ newly nf pso hps hadj_some hadj_A
      have hstep : floodAux w h g blocked sched (fuel + 1) newly (hd :: rest) =
          floodAux w h g blocked sched fuel nf (sched rest ps) := by
        simp only [floodAux, hps]
      rw [hstep]
      refine ih nf (sched rest ps) ?_ ?_ ?_ ?_ ?_
      · rw [hslen]
        simp only [List.length_cons] at hfuel
        omega
      · exact (hmem s).2 (Or.inl hs)
      · intro c hc
        rcases (hsmem rest ps c).1 hc with hc2 | hc2
        · obtain ⟨hm, hz⟩ := hstack c (List.mem_cons_of_mem hd hc2)
          exact ⟨(hmem c).2 (Or.inl hm), hz⟩
        · obtain ⟨hm, _, hz⟩ := hpsmem c hc2
          exact ⟨hm, hz⟩
      · intro c hc
        rcases (hmem c).1 hc with hold | hnew
        · exact hreach c hold
        · exact Reaches.step (hreach hd hhdmem) hhdzero hnew.1 hnew.2
      · intro c hc hzero
        by_cases hcn : c ∈ newly
        · rcases hclosed c hcn hzero with hin | hall
          · rcases List.mem_cons.1 hin with rfl | hin2
            · right
              intro n hn hnb
              exact (hmem n).2 (Or.inr ⟨hn, hnb⟩)
            · left
              exact (hsmem rest ps c).2 (Or.inl hin2)
          · right
            intro n hn hnb
            exact (hmem n).2 (Or.inl (hall n hn hnb))
        · left
          exact (hsmem rest ps c).2 (Or.inr (hpscomp c hc hcn hzero))

lemma gridVal_isSome_of_shape {b : Board} (hWF : ShapeWF b) :
    ∀ c : Cell, InB b.width b.height c → (gridVal b.grid c.1 c.2).isSome := by
  rintro ⟨cx, cy⟩ ⟨hx0, hxw, hy0, hyh⟩
  rw [gridVal_nonneg _ hx0 hy0]
  have hylen : cy.toNat < b.grid.length := by rw [hWF.1]; omega
  rw [List.get?_eq_get hylen]
  have hrlen : (b.grid.get ⟨cy.toNat, hylen⟩).length = b.width :=
    hWF.2 _ (b.grid.get_mem _ _)
  have hxlen : cx.toNat < (b.grid.get ⟨cy.toNat, hylen⟩).length := by
    rw [hrlen]; omega
  rw [Option.some_bind, List.get?_eq_get hxlen]
  rfl

lemma stackSched_len (rest ps : List Cell) :
    (stackSched rest ps).length = rest.length + ps.length := by
  simp [stackSched, Nat.add_comm]

lemma stackSched_mem (rest ps : List Cell) (c : Cell) :
    c ∈ stackSched rest ps ↔ c ∈ rest ∨ c ∈ ps := by
  simp [stackSched, or_comm]

lemma queueSched_len (rest ps : List Cell) :
    (queueSched rest ps).length = rest.length + ps.length := by
  simp [queueSched]

lemma queueSched_mem (rest ps : List Cell) (c : Cell) :
    c ∈ queueSched rest ps ↔ c ∈ rest ∨ c ∈ ps := by
  simp [queueSched]

lemma revealWith_zero_spec (sched : List Cell → List Cell → List Cell)
    (hslen : ∀ rest ps : List Cell, (sched rest ps).length = rest.length + ps.length)
    (hsmem : ∀ (rest ps : List Cell) (c : Cell), c ∈ sched rest ps ↔ c ∈ rest ∨ c ∈ ps)
    (b : Board) (x y : Int)
    (hWF : ShapeWF b) (hin : InB b.width b.height (x, y))
    (h1 : (x, y) ∉ b.revealed) (h2 : (x, y) ∉ b.flagged)
    (h0 : gridVal b.grid x y = some 0) :
    ∃ N : Finset Cell,
      revealWith sched b x y = (some N, { b with revealed := b.revealed ∪ N }) ∧
      ∀ c, c ∈ N ↔ Reaches b.width b.height b.grid (b.revealed ∪ b.flagged) (x, y) c := by
  have hcardfuel : (allCells b.width b.height \ {((x, y) : Cell)}).card + 1 ≤
      b.width * b.height + 2 := by
    have hsub : (allCells b.width b.height \ {((x, y) : Cell)}).card ≤
        (allCells b.width b.height).card :=
      Finset.card_le_card (Finset.sdiff_subset)
    rw [card_allCells] at hsub
    omega
  obtain ⟨herr, hiff⟩ :=
    floodAux_spec b.width b.height b.grid (b.revealed ∪ b.flagged) sched hslen hsmem
      (gridVal_isSome_of_shape hWF) (x, y) (b.width * b.height + 2) {(x, y)} [(x, y)]
      (by simpa using hcardfuel)
      (Finset.mem_singleton_self _)
      (by
        intro c hc
        rcases List.mem_singleton.1 hc with rfl
        exact ⟨Finset.mem_singleton_self _, h0⟩)
      (by
        intro c hc
        rcases Finset.mem_singleton.1 hc with rfl
        exact Reaches.base)
      (by
        intro c hc _
        rcases Finset.mem_singleton.1 hc with rfl
        exact Or.inl (List.mem_singleton_self _))
  refine ⟨(floodAux b.width b.height b.grid (b.revealed ∪ b.flagged) sched
    (b.width * b.height + 2) {(x, y)} [(x, y)]).1, ?_, hiff⟩
  rw [revealWith, if_neg (by tauto)]
  simp only [h0]
  rw [if_pos trivial]
  simp only [herr]
  rfl

lemma reaches_not_mem_blocked {w h : Nat} {g : List (List Int)}
    {blocked : Finset Cell} {s c : Cell} (hs : s ∉ blocked) :
    Reaches w h g blocked s c → c ∉ blocked := by
  intro hr
  induction hr with
  | base => exact hs
  | step _ _ _ hnb _ => exact hnb

lemma inRegion_zero {b : Board} {s c : Cell}
    (hs0 : gridVal b.grid s.1 s.2 = some 0) :
    InRegion b s c → gridVal b.grid c.1 c.2 = some 0 := by
  intro hr
  induction hr with
  | base => exact hs0
  | step _ _ _ hn0 _ _ => exact hn0

lemma inRegion_not_flagged {b : Board} {s c : Cell} (hsf : s ∉ b.flagged) :
    InRegion b s c → c ∉ b.flagged := by
  intro hr
  induction hr with
  | base => exact hsf
  | step _ _ _ _ hnf _ => exact hnf

lemma inRegion_reaches {b : Board} {s : Cell}
    (hreg : ∀ c, InRegion b s c → c ∉ b.revealed) :
    ∀ c, InRegion b s c →
      Reaches b.width b.height b.grid (b.revealed ∪ b.flagged) s c := by
  intro c hr
  induction hr with
  | base => exact Reaches.base
  | @step c' n hr' hc0 hn hn0 hnf ih =>
    refine Reaches.step ih hc0 (adjacent_eq_nbhd.2 hn) ?_
    have hnreg : InRegion b s n := InRegion.step hr' hc0 hn hn0 hnf
    intro hu
    rcases Finset.mem_union.1 hu with hu2 | hu2
    · exact hreg n hnreg hu2
    · exact hnf hu2

lemma reaches_region_or_border {b : Board} {s : Cell}
    (hWF : ShapeWF b) (hs0 : gridVal b.grid s.1 s.2 = some 0) :
    ∀ c, Reaches b.width b.height b.grid (b.revealed ∪ b.flagged) s c →
      InRegion b s c ∨ IsBorder b s c := by
  intro c hr
  induction hr with
  | base => exact Or.inl InRegion.base
  | @step c' n hr' hc0 hadj hnb ih =>
    have hc'reg : InRegion b s c' := by
      rcases ih with hreg | hbor
      · exact hreg
      · obtain ⟨_, v, hv, hvne⟩ := hbor
        rw [hc0] at hv
        exact absurd (Option.some.injEq .. ▸ hv).symm hvne
    have hnin : InB b.width b.height n := (mem_get_adjacent_squares.1 hadj).1
    have hnsome := gridVal_isSome_of_shape hWF n hnin
    cases hv : gridVal b.grid n.1 n.2 with
    | none => rw [hv] at hnsome; exact absurd hnsome (by simp)
    | some vn =>
      by_cases hvn : vn = 0
      · subst hvn
        left
        refine InRegion.step hc'reg hc0 (adjacent_eq_nbhd.1 hadj) hv ?_
        intro hf
        exact hnb (Finset.mem_union_right _ hf)
      · right
        exact ⟨⟨c', hc'reg, hc0, adjacent_eq_nbhd.1 hadj⟩, vn, hv, hvn⟩

/-- C2 amended: on a well-formed board, revealing an in-bounds,
unrevealed, unflagged zero-valued cell whose zero region contains no
previously revealed cell reveals exactly the maximal connected region of
zero-valued cells containing it plus the non-zero cells immediately
bordering it, skipping flagged cells and nothing else; the returned set
is exactly the set of newly revealed coordinates, and a FIFO queue
frontier produces the identical result as the LIFO stack the code uses. -/
theorem C2_flood_fill_region (b : Board) (x y : Int)
    (hWF : ShapeWF b) (hin : InB b.width b.height (x, y))
    (h1 : (x, y) ∉ b.revealed) (h2 : (x, y) ∉ b.flagged)
    (h0 : gridVal b.grid x y = some 0)
    (hreg : ∀ c, InRegion b (x, y) c → c ∉ b.revealed) :
    (∃ N : Finset Cell,
      reveal_square b x y = (some N, { b with revealed := b.revealed ∪ N }) ∧
      (∀ c : Cell, c ∈ N ↔
        (InRegion b (x, y) c ∨ IsBorder b (x, y) c) ∧ c ∉ b.revealed ∧ c ∉ b.flagged) ∧
      (∀ c : Cell, c ∈ b.revealed ∪ N ↔
        c ∈ b.revealed ∨ ((InRegion b (x, y) c ∨ IsBorder b (x, y) c) ∧ c ∉ b.flagged))) ∧
    reveal_square_queue b x y = reveal_square b x y := by
  have hsblocked : ((x, y) : Cell) ∉ b.revealed ∪ b.flagged := by
    intro hu
    rcases Finset.mem_union.1 hu with hu2 | hu2
    · exact h1 hu2
    · exact h2 hu2
  obtain ⟨N, hstack, hNiff⟩ :=
    revealWith_zero_spec stackSched stackSched_len stackSched_mem b x y hWF hin h1 h2 h0
  obtain ⟨N', hqueue, hN'iff⟩ :=
    revealWith_zero_spec queueSched queueSched_len queueSched_mem b x y hWF hin h1 h2 h0
  have hNN : N' = N := Finset.ext fun c => (hN'iff c).trans (hNiff c).symm
  have hchar : ∀ c : Cell, c ∈ N ↔
      (InRegion b (x, y) c ∨ IsBorder b (x, y) c) ∧ c ∉ b.revealed ∧ c ∉ b.flagged := by
    intro c
    rw [hNiff c]
    constructor
    · intro hr
      have hnb := reaches_not_mem_blocked hsblocked hr
      refine ⟨reaches_region_or_border hWF h0 c hr, ?_, ?_⟩
      · exact fun hmem => hnb (Finset.mem_union_left _ hmem)
      · exact fun hmem => hnb (Finset.mem_union_right _ hmem)
    · rintro ⟨hrb, hnr, hnf⟩
      rcases hrb with hrg | hbd
      · exact inRegion_reaches hreg c hrg
      · obtain ⟨⟨c0, hc0reg, hc0zero, hc0n⟩, v, hv, hvne⟩ := hbd
        exact Reaches.step (inRegion_reaches hreg c0 hc0reg) hc0zero
          (adjacent_eq_nbhd.2 hc0n)
          (fun hu => (Finset.mem_union.1 hu).elim hnr hnf)
  refine ⟨⟨N, hstack, hchar, ?_⟩, ?_⟩
  · intro c
    rw [Finset.mem_union]
    constructor
    · rintro (hc | hc)
      · exact Or.inl hc
      · obtain ⟨hrb, _, hnf⟩ := (hchar c).1 hc
        exact Or.inr ⟨hrb, hnf⟩
    · rintro (hc | hc)
      · exact Or.inl hc
      · by_cases hcr : c ∈ b.revealed
        · exact Or.inl hcr
        · exact Or.inr ((hchar c).2 ⟨hc.1, hcr, hc.2⟩)
  · show revealWith queueSched b x y = revealWith stackSched b x y
    rw [hqueue, hstack, hNN]

/-- A reachable board state on a 1×5 column with a mine at `(0, 4)`:
after placing mines for a first click at `(0, 0)`, the player flags
`(0, 0)` and `(0, 2)`, reveals `(0, 1)` (which cannot expand past the
flags), then removes both flags.  Now `(0, 1)` is revealed while the rest
of its zero region is neither revealed nor flagged. -/
def prerevealBoard : Board :=
  runOps (place_mines (Board.init 1 5 1) (insert ((0 : Int), (4 : Int)) ∅))
    [Op.flag 0 0, Op.flag 0 2, Op.reveal 0 1, Op.flag 0 0, Op.flag 0 2]

/-- C2 counterexample: on `prerevealBoard`, the cell `(0, 2)` is
unrevealed, unflagged and zero-valued, and the unflagged cell `(0, 0)`
belongs to the maximal connected zero region of `(0, 2)`; yet
`reveal_square` at `(0, 2)` leaves `(0, 0)` unrevealed, because the flood
front stops at the already-revealed zero cell `(0, 1)`.  The claim's
region equation therefore fails on this board. -/
theorem C2_counterexample :
    ((0, 2) : Cell) ∉ prerevealBoard.revealed ∧
    ((0, 2) : Cell) ∉ prerevealBoard.flagged ∧
    gridVal prerevealBoard.grid 0 2 = some 0 ∧
    InRegion prerevealBoard (0, 2) (0, 0) ∧
    ((0, 0) : Cell) ∉ prerevealBoard.flagged ∧
    ((0, 0) : Cell) ∉ prerevealBoard.revealed ∧
    ((0, 0) : Cell) ∉ (reveal_square prerevealBoard 0 2).2.revealed := by
  refine ⟨by decide, by decide, by decide, ?_, by decide, by decide, by decide⟩
  have s1 : InRegion prerevealBoard (0, 2) (0, 1) :=
    InRegion.step InRegion.base (by decide) (by decide) (by decide) (by decide)
  exact InRegion.step s1 (by decide) (by decide) (by decide) (by decide)

/-- C2 witness: the amended flood-fill law evaluated on the concrete
3×1 board `mineBoard` (grid `[[0, 1, -1]]`) at the zero cell `(0, 0)`. -/
theorem C2_flood_fill_region_witness :
    (∃ N : Finset Cell,
      reveal_square mineBoard 0 0 =
        (some N, { mineBoard with revealed := mineBoard.revealed ∪ N }) ∧
      (∀ c : Cell, c ∈ N ↔
        (InRegion mineBoard (0, 0) c ∨ IsBorder mineBoard (0, 0) c) ∧
          c ∉ mineBoard.revealed ∧ c ∉ mineBoard.flagged) ∧
      (∀ c : Cell, c ∈ mineBoard.revealed ∪ N ↔
        c ∈ mineBoard.revealed ∨
          ((InRegion mineBoard (0, 0) c ∨ IsBorder mineBoard (0, 0) c) ∧
            c ∉ mineBoard.flagged))) ∧
    reveal_square_queue mineBoard 0 0 = reveal_square mineBoard 0 0 :=
  C2_flood_fill_region mineBoard 0 0 (by constructor <;> decide) (by decide)
    (by decide) (by decide) (by decide) (fun c _ => Finset.not_mem_empty c)

end Mines
